import Mathlib

set_option maxRecDepth 100000

/-!
Verification development for the Roman-numeral glyph builder script
(buildromannumeralswithfeatures.py).  The host application's font object
model (font, glyph, layer, master, component, feature) is embedded as
plain Lean structures; the script's two phases, glyph construction
(create_roman_glyphs) and feature merging (update_feature /
add_opentype_features), are embedded as pure functions threading the font
state explicitly and returning the list of printed log messages.
-/

/-- Predicate for a regex word character (the class matched by backslash-w
for the ASCII rule text): ASCII letter, digit or underscore. -/
def isWordChar (c : Char) : Bool :=
  c.isAlphanum || c == '_'

/-- Characters of the identifier class [A-Za-z0-9_.-] used in the rule
pattern's capture group. -/
def isIdentChar (c : Char) : Bool :=
  c.isAlphanum || c == '_' || c == '.' || c == '-'

/-- ASCII whitespace, as matched both by the regex class backslash-s and by
Python's str.strip. -/
def isSpaceChar (c : Char) : Bool :=
  c == ' ' || c == '\t' || c == '\n' || c == '\r' || c == '\x0b' || c == '\x0c'

/-- Attempts to match the remainder of the pattern after the literal "by":
one or more whitespace characters, a nonempty run of identifier-class
characters (the capture), then a literal semicolon.  Returns the captured
name and the characters following the match. -/
def matchAfterBy (cs : List Char) : Option (String × List Char) :=
  match cs with
  | [] => none
  | c :: _ =>
    if isSpaceChar c then
      let sp := cs.dropWhile isSpaceChar
      let ident := sp.takeWhile isIdentChar
      let rest := sp.dropWhile isIdentChar
      if ident.isEmpty then none
      else
        match rest with
        | ';' :: rest2 => some (String.mk ident, rest2)
        | _ => none
    else none

/-- Fuel-indexed scanner for all non-overlapping matches of the pattern
used at line 102 of the script, scanning left to right.  The boolean
argument records whether the previous character was a word character (for
the word-boundary test before "by"). -/
def reFindByAux : Nat → List Char → Bool → List String
  | 0, _, _ => []
  | _ + 1, [], _ => []
  | fuel + 1, c :: rest, prevWord =>
    if c == 'b' && !prevWord then
      match rest with
      | 'y' :: rest2 =>
        match matchAfterBy rest2 with
        | some (ident, cs3) => ident :: reFindByAux fuel cs3 false
        | none => reFindByAux fuel rest true
      | _ => reFindByAux fuel rest true
    else
      reFindByAux fuel rest (isWordChar c)

/-- The set of glyph names referenced as right-hand sides of substitution
rules in a rule block: re.findall of the pattern over the text, with
duplicates removed (the script collects the matches into a set). -/
def referencedGlyphs (rules : String) : List String :=
  (reFindByAux (rules.data.length + 1) rules.data false).eraseDups

/-- A placed component: a reference to another glyph by name, a 2D offset,
and the automatic-alignment flag (GSComponent). -/
structure GSComponent where
  componentName : String
  position : Int × Int
  automaticAlignment : Bool
  deriving DecidableEq, Repr

/-- A per-master shape layer of a glyph: associated master id, advance
width and the ordered placed components (GSLayer). -/
structure GSLayer where
  associatedMasterId : String
  width : Int
  components : List GSComponent
  deriving DecidableEq, Repr

/-- A glyph: name, optional Unicode code point and production name, and
one layer per master id (GSGlyph); layers are keyed by master id. -/
structure GSGlyph where
  name : String
  unicode : Option String
  productionName : Option String
  layers : List (String × GSLayer)
  deriving DecidableEq, Repr

/-- A font master, identified by its id (GSFontMaster). -/
structure GSFontMaster where
  id : String
  deriving DecidableEq, Repr

/-- An OpenType feature: name and code-text body (GSFeature). -/
structure GSFeature where
  name : String
  code : String
  deriving DecidableEq, Repr

/-- The font document: glyph list, master list and feature list (GSFont). -/
structure GSFont where
  glyphs : List GSGlyph
  masters : List GSFontMaster
  features : List GSFeature
  deriving DecidableEq, Repr

/-- Lookup of a glyph by name, as font.glyphs[name]: the first glyph in
the list bearing the name, if any. -/
def findGlyph (font : GSFont) (gname : String) : Option GSGlyph :=
  font.glyphs.find? (fun g => g.name == gname)

/-- Lookup of a glyph's layer by master id, as glyph.layers[master_id]. -/
def layerOfGlyph (g : GSGlyph) (mid : String) : Option GSLayer :=
  (g.layers.find? (fun p => p.1 == mid)).map (fun p => p.2)

/-- Keyed update of a layer association list: replaces the entry for the
given master id, or appends one if absent. -/
def setLayerList : List (String × GSLayer) → String → GSLayer → List (String × GSLayer)
  | [], mid, l => [(mid, l)]
  | (k, v) :: rest, mid, l =>
    if k == mid then (mid, l) :: rest else (k, v) :: setLayerList rest mid l

/-- Assignment glyph.layers[master_id] = layer. -/
def setLayer (g : GSGlyph) (mid : String) (l : GSLayer) : GSGlyph :=
  { g with layers := setLayerList g.layers mid l }

/-- The inner component-placement loop of create_roman_glyphs (lines
53-65): walks the component-name list, skipping (with a warning) names
absent from the font, placing a component at the running horizontal cursor
and advancing the cursor by the referenced glyph's width in the current
master.  A referenced glyph present in the font but without a layer for
the master raises an exception in the script; this is modelled by the
error result, carrying the log lines printed before the exception. -/
def placeComponents (font : GSFont) (mid : String) :
    List String → List GSComponent → Int → List String →
      Except (List String) (List GSComponent × Int × List String)
  | [], placed, x, logs => .ok (placed, x, logs)
  | cname :: rest, placed, x, logs =>
    match findGlyph font cname with
    | none =>
      placeComponents font mid rest placed x
        (logs ++ ["   ⚠️ Missing component: " ++ cname])
    | some g =>
      match layerOfGlyph g mid with
      | none => .error logs
      | some l =>
        placeComponents font mid rest
          (placed ++ [{ componentName := cname, position := (x, 0),
                        automaticAlignment := true }])
          (x + l.width) logs

/-- The per-master loop of create_roman_glyphs (lines 47-68): for each
master builds one layer by placeComponents and assigns it to the new
glyph.  Component lookups see the font with the new glyph appended (the
script mutates the glyph already inserted into the font).  On an exception
the loop stops, the glyph keeping only the layers already assigned, and
the error is logged (modelling the per-entry try/except); the boolean
records whether the loop completed normally. -/
def mastersLoop (font0 : GSFont) (gname : String) (comps : List String) :
    List GSFontMaster → GSGlyph → List String → GSGlyph × List String × Bool
  | [], g, logs => (g, logs, true)
  | m :: rest, g, logs =>
    let curFont : GSFont := { font0 with glyphs := font0.glyphs ++ [g] }
    match placeComponents curFont m.id comps [] 0 [] with
    | .error errLogs =>
      (g, logs ++ errLogs ++ ["❌ Error in " ++ gname], false)
    | .ok (placed, x, subLogs) =>
      mastersLoop font0 gname comps rest
        (setLayer g m.id
          { associatedMasterId := m.id, width := x, components := placed })
        (logs ++ subLogs)

/-- The loop body of create_roman_glyphs for one table entry (lines
33-72): skip when a glyph of the target name already exists, otherwise
create the glyph (setting code point and production name when a code point
was supplied), append it to the font, and build one layer per master. -/
def processEntry (font : GSFont) (entry : String × String × List String) :
    GSFont × List String :=
  match entry with
  | (unicodeHex, gname, comps) =>
    match findGlyph font gname with
    | some _ => (font, ["⚠️ Skipping " ++ gname ++ ": Exists."])
    | none =>
      let newGlyph : GSGlyph :=
        { name := gname
          unicode := if unicodeHex == "" then none else some unicodeHex
          productionName :=
            if unicodeHex == "" then none else some ("uni" ++ unicodeHex)
          layers := [] }
      match mastersLoop font gname comps font.masters newGlyph
          ["✅ Created " ++ gname] with
      | (finalG, logs, _) =>
        ({ font with glyphs := font.glyphs ++ [finalG] }, logs)

/-- The static table of Roman-numeral glyphs to build: optional Unicode
code point (hex text), target glyph name, ordered component glyph names. -/
def roman_glyphs : List (String × String × List String) :=
  [("2160", "Ⅰ", ["I"]),
   ("2161", "Ⅱ", ["I", "I"]),
   ("2162", "Ⅲ", ["I", "I", "I"]),
   ("2163", "Ⅳ", ["I", "V"]),
   ("2164", "Ⅴ", ["V"]),
   ("2165", "Ⅵ", ["V", "I"]),
   ("2166", "Ⅶ", ["V", "I", "I"]),
   ("2167", "Ⅷ", ["V", "I", "I", "I"]),
   ("2168", "Ⅸ", ["I", "X"]),
   ("2169", "Ⅹ", ["X"]),
   ("216A", "Ⅺ", ["X", "I"]),
   ("216B", "Ⅻ", ["X", "I", "I"]),
   ("216C", "Ⅼ", ["L"]),
   ("216D", "Ⅽ", ["C"]),
   ("216E", "Ⅾ", ["D"]),
   ("216F", "Ⅿ", ["M"]),
   ("", "Twenty-roman", ["X", "X"])]

/-- The entry loop of create_roman_glyphs, threading the font and the
accumulated log lines. -/
def createLoop : GSFont → List (String × String × List String) → List String →
    GSFont × List String
  | font, [], logs => (font, logs)
  | font, e :: rest, logs =>
    match processEntry font e with
    | (f', ls) => createLoop f' rest (logs ++ ls)

/-- Phase one of the script: build all Roman-numeral glyphs of the static
table. -/
def create_roman_glyphs (font : GSFont) : GSFont × List String :=
  createLoop font roman_glyphs []

/-- The fixed stylistic-set rule block (ss01_rules, lines 75-86). -/
def ss01_rules : String :=
  "\n  # Single substitutions (Arabic to Roman)\n  sub one by One-roman;\n  sub two by Two-roman;\n  sub three by Three-roman;\n  sub four by Four-roman;\n  sub five by Five-roman;\n  sub six by Six-roman;\n  sub seven by Seven-roman;\n  sub eight by Eight-roman;\n  sub nine by Nine-roman;\n"

/-- The fixed ligature rule block (liga_rules, lines 88-98). -/
def liga_rules : String :=
  "\n  # Ligature substitutions\n  sub One-roman zero by Ten-roman;\n  sub One-roman One-roman by Eleven-roman;\n  sub One-roman Two-roman by Twelve-roman;\n  sub Two-roman zero by Twenty-roman;\n  sub Five-roman zero by Fifty-roman;\n  sub One-roman zero zero by Hundred-roman;\n  sub Five-roman zero zero by Fivehundred-roman;\n  sub One-roman zero zero zero by Thousand-roman;\n"

/-- Python str.strip(): removes leading and trailing ASCII whitespace. -/
def pyStrip (s : String) : String :=
  String.mk (((s.data.dropWhile isSpaceChar).reverse.dropWhile isSpaceChar).reverse)

/-- Python substring containment: strContains s pat holds when pat occurs
contiguously inside s (the test pat in s). -/
def strContains (s pat : String) : Bool :=
  decide (pat.data <:+: s.data)

/-- Python ", ".join. -/
def joinComma : List String → String
  | [] => ""
  | [a] => a
  | a :: b :: rest => a ++ ", " ++ joinComma (b :: rest)

/-- The names of all glyphs in the font. -/
def glyphNames (font : GSFont) : List String :=
  font.glyphs.map (fun g => g.name)

/-- In-place code assignment to the first feature bearing the given name:
the mutation existing_feature.code = new_code of the feature object found
by the linear search of lines 109-112. -/
def updateFirstFeature : List GSFeature → String → String → List GSFeature
  | [], _, _ => []
  | f :: rest, fname, code =>
    if f.name == fname then { f with code := code } :: rest
    else f :: updateFirstFeature rest fname code

/-- The update_feature closure (lines 100-126): checks that every glyph
referenced on a rule's right-hand side exists (aborting with a log line
otherwise); then either appends the rules to the first existing feature of
the given name (unless the stripped rules already occur in its code), or
creates a new feature with the rules as its verbatim code body. -/
def update_feature (font : GSFont) (feature_name rules : String) :
    GSFont × List String :=
  let referenced := referencedGlyphs rules
  let missing := referenced.filter (fun g => !(glyphNames font).contains g)
  if missing.isEmpty then
    match font.features.find? (fun f => f.name == feature_name) with
    | some existing =>
      if strContains existing.code (pyStrip rules) then
        (font, ["⚠️ Rules already exist in " ++ feature_name])
      else
        ({ font with
            features := updateFirstFeature font.features feature_name
              (pyStrip existing.code ++ "\n" ++ rules) },
         ["✅ Updated existing " ++ feature_name ++ " feature"])
    | none =>
      ({ font with
          features := font.features ++ [{ name := feature_name, code := rules }] },
       ["✅ Created new " ++ feature_name ++ " feature"])
  else
    (font, ["⚠️ Cannot add " ++ feature_name ++ ". Missing glyphs: " ++
            joinComma missing])

/-- First index of a name in a list, as Python list.index (the value for
an absent name is never used by the script, which tests membership first). -/
def firstIdx : List String → String → Nat
  | [], _ => 0
  | x :: xs, a => if x == a then 0 else firstIdx xs a + 1

/-- The names of the font's features, in list order. -/
def featureNames (font : GSFont) : List String :=
  font.features.map (fun f => f.name)

/-- The reordering step of add_opentype_features (lines 131-139): when
both ss01 and liga are present and liga's first position precedes ss01's,
every feature bearing either name is removed and the first ss01 and first
liga features are re-appended in that order. -/
def reorderFeatures (font : GSFont) : GSFont × List String :=
  let names := featureNames font
  if names.contains "ss01" && names.contains "liga" then
    if firstIdx names "liga" < firstIdx names "ss01" then
      match font.features.find? (fun f => f.name == "ss01"),
            font.features.find? (fun f => f.name == "liga") with
      | some ss01, some liga =>
        ({ font with
            features :=
              (font.features.filter
                (fun f => !(f.name == "ss01") && !(f.name == "liga"))) ++
              [ss01, liga] },
         ["✅ Reordered: ss01 now precedes liga"])
      | _, _ => (font, [])
    else (font, [])
  else (font, [])

/-- Phase two of the script: merge the two fixed rule blocks and run the
reordering step. -/
def add_opentype_features (font : GSFont) : GSFont × List String :=
  match update_feature font "ss01" ss01_rules with
  | (f1, l1) =>
    match update_feature f1 "liga" liga_rules with
    | (f2, l2) =>
      match reorderFeatures f2 with
      | (f3, l3) => (f3, l1 ++ l2 ++ l3)

/-- Width contributed by a component name in a master: the width of the
referenced glyph's layer for that master, zero when the glyph or layer is
absent. -/
def compWidth (font : GSFont) (mid cname : String) : Int :=
  match findGlyph font cname with
  | none => 0
  | some g =>
    match layerOfGlyph g mid with
    | none => 0
    | some l => l.width

/-- Sum of the component widths of a component-name list in a master. -/
def totWidth (font : GSFont) (mid : String) (comps : List String) : Int :=
  (comps.map (compWidth font mid)).sum

/-- The components the inner loop places for a component-name list
starting at a given horizontal cursor: one per name found in the font, at
the running sum of the preceding names' widths. -/
def expComps (font : GSFont) (mid : String) : List String → Int → List GSComponent
  | [], _ => []
  | c :: rest, x =>
    if (findGlyph font c).isSome then
      { componentName := c, position := (x, 0), automaticAlignment := true } ::
        expComps font mid rest (x + compWidth font mid c)
    else
      expComps font mid rest (x + compWidth font mid c)

/-- The layer the glyph builder creates for one master from a
component-name list. -/
def expLayer (font : GSFont) (mid : String) (comps : List String) : GSLayer :=
  { associatedMasterId := mid
    width := totWidth font mid comps
    components := expComps font mid comps 0 }

/-- The warning lines printed for the component names of a list that are
absent from the font, in list order. -/
def missLogs (font : GSFont) (comps : List String) : List String :=
  (comps.filter (fun c => (findGlyph font c).isNone)).map
    (fun c => "   ⚠️ Missing component: " ++ c)

/-- A one-master witness font containing the base glyphs I (width 5) and
V (width 7). -/
def wGlyphI : GSGlyph :=
  { name := "I", unicode := none, productionName := none
    layers := [("m1", { associatedMasterId := "m1", width := 5, components := [] })] }

/-- The V glyph of the witness font. -/
def wGlyphV : GSGlyph :=
  { name := "V", unicode := none, productionName := none
    layers := [("m1", { associatedMasterId := "m1", width := 7, components := [] })] }

/-- The witness font for the glyph-construction claims. -/
def wFontC1 : GSFont :=
  { glyphs := [wGlyphI, wGlyphV], masters := [{ id := "m1" }], features := [] }

/-- The witness font for C7: only the I glyph, one master. -/
def wFontC7 : GSFont :=
  { glyphs := [wGlyphI], masters := [{ id := "m1" }], features := [] }

/-- A font with no glyphs, used as the C3 witness: every referenced glyph
of the stylistic-set block is missing. -/
def wFontEmpty : GSFont := { glyphs := [], masters := [], features := [] }

/-- The witness font for C5: one ss01 feature whose code already contains
the (stripped) rules to merge. -/
def wFontC5 : GSFont :=
  { glyphs := [], masters := [],
    features := [{ name := "ss01", code := "x" }] }

/-- The C6 counterexample font: one ss01 feature whose code has a trailing
space. -/
def wFontC6 : GSFont :=
  { glyphs := [], masters := [],
    features := [{ name := "ss01", code := "old " }] }

/-- The witness font for C9: contains the single glyph B referenced by a
small rule block. -/
def wFontC9 : GSFont :=
  { glyphs := [{ name := "B", unicode := none, productionName := none, layers := [] }],
    masters := [], features := [] }

/-- The nine Roman-target glyphs referenced by the ss01 block, as bare
glyph records for witness fonts. -/
def wRomanGlyphs : List GSGlyph :=
  ["One-roman", "Two-roman", "Three-roman", "Four-roman", "Five-roman",
   "Six-roman", "Seven-roman", "Eight-roman", "Nine-roman"].map
    (fun n => { name := n, unicode := none, productionName := none, layers := [] })

/-- A font exercising the feature-creation path: all referenced glyphs
present, no features. -/
def wFontC8A : GSFont :=
  { glyphs := wRomanGlyphs, masters := [], features := [] }

/-- A font exercising the append path: all referenced glyphs present and
an existing ss01 feature whose code is "old". -/
def wFontC8B : GSFont :=
  { glyphs := wRomanGlyphs, masters := [],
    features := [{ name := "ss01", code := "old" }] }

/-- The witness font for C2: liga precedes an unrelated feature and ss01. -/
def wFontC2 : GSFont :=
  { glyphs := [], masters := [],
    features := [{ name := "liga", code := "L" }, { name := "x", code := "X" },
                 { name := "ss01", code := "S" }] }

/-- The witness font for C10: liga first, then two ss01 features. -/
def wFontC10 : GSFont :=
  { glyphs := [], masters := [],
    features := [{ name := "liga", code := "L1" }, { name := "ss01", code := "S1" },
                 { name := "ss01", code := "S2" }] }

/-- Appending one element to the searched list either keeps the result of
the search or, when nothing was found, finds the new element. -/
lemma find?_append_single {α} (l : List α) (p : α → Bool) (a : α) :
    (l ++ [a]).find? p =
      match l.find? p with
      | some b => some b
      | none => if p a then some a else none := by
  induction l with
  | nil => cases hpa : p a <;> simp [List.find?, hpa]
  | cons x xs ih =>
    by_cases hx : p x
    · simp [List.find?, hx]
    · simp only [List.cons_append, List.find?, Bool.not_eq_true] at *
      rw [Bool.eq_false_iff] at hx
      simp [hx, ih]

/-- Glyph lookup in a font with one glyph appended, for a name other than
the new glyph's, agrees with lookup in the original font. -/
lemma findGlyph_append_ne (font : GSFont) (g : GSGlyph) (c : String)
    (h : ¬ c = g.name) :
    findGlyph { font with glyphs := font.glyphs ++ [g] } c = findGlyph font c := by
  unfold findGlyph
  rw [find?_append_single]
  cases hf : font.glyphs.find? (fun x => x.name == c) with
  | some b => rfl
  | none =>
    have : (g.name == c) = false := by
      simp [Ne.symm h]
    simp [this]

/-- Glyph lookup for the appended glyph's own name succeeds when the name
was previously absent. -/
lemma findGlyph_append_self (font : GSFont) (g : GSGlyph)
    (h : findGlyph font g.name = none) :
    findGlyph { font with glyphs := font.glyphs ++ [g] } g.name = some g := by
  unfold findGlyph at *
  rw [find?_append_single, h]
  simp

/-- A successful glyph lookup is preserved by appending a glyph. -/
lemma findGlyph_append_found (font : GSFont) (g h : GSGlyph) (c : String)
    (hf : findGlyph font c = some h) :
    findGlyph { font with glyphs := font.glyphs ++ [g] } c = some h := by
  unfold findGlyph at *
  rw [find?_append_single, hf]

/-- Component-width lookup is unchanged by appending a glyph of another
name. -/
lemma compWidth_append_ne (font : GSFont) (g : GSGlyph) (mid c : String)
    (h : ¬ c = g.name) :
    compWidth { font with glyphs := font.glyphs ++ [g] } mid c =
      compWidth font mid c := by
  unfold compWidth
  rw [findGlyph_append_ne font g c h]

/-- Expected placed components are unchanged by appending a glyph whose
name is not among the component names. -/
lemma expComps_append_ne (font : GSFont) (g : GSGlyph) (mid : String) :
    ∀ comps : List String, (∀ c ∈ comps, ¬ c = g.name) → ∀ x : Int,
      expComps { font with glyphs := font.glyphs ++ [g] } mid comps x =
        expComps font mid comps x := by
  intro comps
  induction comps with
  | nil => intro _ x; rfl
  | cons c rest ih =>
    intro h x
    have hc : ¬ c = g.name := h c (by simp)
    have hrest : ∀ c2 ∈ rest, ¬ c2 = g.name := fun c2 hc2 => h c2 (by simp [hc2])
    simp only [expComps, findGlyph_append_ne font g c hc,
      compWidth_append_ne font g mid c hc, ih hrest]

/-- Total width is unchanged by appending a glyph whose name is not among
the component names. -/
lemma totWidth_append_ne (font : GSFont) (g : GSGlyph) (mid : String)
    (comps : List String) (h : ∀ c ∈ comps, ¬ c = g.name) :
    totWidth { font with glyphs := font.glyphs ++ [g] } mid comps =
      totWidth font mid comps := by
  unfold totWidth
  congr 1
  exact List.map_congr_left fun c hc => compWidth_append_ne font g mid c (h c hc)

/-- Missing-component warnings are unchanged by appending a glyph whose
name is not among the component names. -/
lemma missLogs_append_ne (font : GSFont) (g : GSGlyph)
    (comps : List String) (h : ∀ c ∈ comps, ¬ c = g.name) :
    missLogs { font with glyphs := font.glyphs ++ [g] } comps =
      missLogs font comps := by
  unfold missLogs
  congr 1
  apply List.filter_congr
  intro c hc
  rw [findGlyph_append_ne font g c (h c hc)]

/-- The component-placement loop, when every component glyph found in the
font has a layer for the master, completes normally: it appends the
expected components, advances the cursor by the total width, and logs one
warning per missing component. -/
lemma placeComponents_ok (font : GSFont) (mid : String) :
    ∀ comps : List String,
      (∀ c ∈ comps, ∀ g, findGlyph font c = some g →
        (layerOfGlyph g mid).isSome) →
      ∀ (placed : List GSComponent) (x : Int) (logs : List String),
        placeComponents font mid comps placed x logs =
          .ok (placed ++ expComps font mid comps x,
               x + totWidth font mid comps,
               logs ++ missLogs font comps) := by
  intro comps
  induction comps with
  | nil =>
    intro _ placed x logs
    simp [placeComponents, expComps, totWidth, missLogs]
  | cons c rest ih =>
    intro h placed x logs
    have hrest : ∀ c2 ∈ rest, ∀ g, findGlyph font c2 = some g →
        (layerOfGlyph g mid).isSome :=
      fun c2 hc2 => h c2 (by simp [hc2])
    cases hc : findGlyph font c with
    | none =>
      simp only [placeComponents, hc]
      rw [ih hrest]
      simp [expComps, totWidth, missLogs, compWidth, hc, List.filter_cons]
    | some g =>
      obtain ⟨l, hl⟩ := Option.isSome_iff_exists.mp (h c (by simp) g hc)
      simp only [placeComponents, hc, hl]
      rw [ih hrest]
      have hw : compWidth font mid c = l.width := by
        simp only [compWidth, hc, hl]
      simp [expComps, totWidth, missLogs, hc, hl, hw, List.filter_cons,
        List.append_assoc, add_assoc]

/-- Layer assignment does not change the glyph's name. -/
lemma name_setLayer (g : GSGlyph) (mid : String) (l : GSLayer) :
    (setLayer g mid l).name = g.name := rfl

/-- Searching the updated layer list for the updated key finds the new
layer. -/
lemma find?_setLayerList_self :
    ∀ (ll : List (String × GSLayer)) (mid : String) (l : GSLayer),
      (setLayerList ll mid l).find? (fun p => p.1 == mid) = some (mid, l) := by
  intro ll
  induction ll with
  | nil => intro mid l; simp [setLayerList, List.find?]
  | cons kv rest ih =>
    intro mid l
    obtain ⟨k, v⟩ := kv
    by_cases hk : k = mid
    · simp [setLayerList, hk, List.find?]
    · have : (k == mid) = false := by simp [hk]
      simp [setLayerList, this, List.find?, ih]

/-- Searching the updated layer list for a different key is unaffected. -/
lemma find?_setLayerList_ne :
    ∀ (ll : List (String × GSLayer)) (mid' : String) (l : GSLayer) (mid : String),
      ¬ mid = mid' →
      (setLayerList ll mid' l).find? (fun p => p.1 == mid) =
        ll.find? (fun p => p.1 == mid) := by
  intro ll
  induction ll with
  | nil =>
    intro mid' l mid h
    have : (mid' == mid) = false := by simp [Ne.symm h]
    simp [setLayerList, List.find?, this]
  | cons kv rest ih =>
    intro mid' l mid h
    obtain ⟨k, v⟩ := kv
    by_cases hk : k = mid'
    · have h1 : (mid' == mid) = false := by simp [Ne.symm h]
      have h2 : (k == mid) = false := by simp [hk, Ne.symm h]
      simp [setLayerList, hk, List.find?, h1, h2]
    · have : (k == mid') = false := by simp [hk]
      simp only [setLayerList, this, if_false, List.find?]
      cases hkm : (k == mid) with
      | true => rfl
      | false => exact ih mid' l mid h

/-- Layer lookup after assigning that master id yields the new layer. -/
lemma layerOfGlyph_setLayer_self (g : GSGlyph) (mid : String) (l : GSLayer) :
    layerOfGlyph (setLayer g mid l) mid = some l := by
  unfold layerOfGlyph setLayer
  simp [find?_setLayerList_self]

/-- Layer lookup for a different master id is unaffected by assignment. -/
lemma layerOfGlyph_setLayer_ne (g : GSGlyph) (mid' : String) (l : GSLayer)
    (mid : String) (h : ¬ mid = mid') :
    layerOfGlyph (setLayer g mid' l) mid = layerOfGlyph g mid := by
  unfold layerOfGlyph setLayer
  simp [find?_setLayerList_ne g.layers mid' l mid h]

/-- The glyph name is preserved by folding layer assignments over a
master list. -/
lemma name_foldl_setLayer (font0 : GSFont) (comps : List String) :
    ∀ (masters : List GSFontMaster) (g : GSGlyph),
      (masters.foldl
        (fun g2 m => setLayer g2 m.id (expLayer font0 m.id comps)) g).name =
        g.name := by
  intro masters
  induction masters with
  | nil => intro g; rfl
  | cons m rest ih => intro g; rw [List.foldl_cons, ih, name_setLayer]

/-- After folding per-master layer assignments, the layer for any master
of the list (or any master id already carrying the expected layer) is the
expected layer for that id. -/
lemma layerOf_foldl_setLayer (font0 : GSFont) (comps : List String) :
    ∀ (masters : List GSFontMaster) (g : GSGlyph) (m : GSFontMaster),
      (m ∈ masters ∨ layerOfGlyph g m.id = some (expLayer font0 m.id comps)) →
      layerOfGlyph
        (masters.foldl
          (fun g2 mm => setLayer g2 mm.id (expLayer font0 mm.id comps)) g)
        m.id = some (expLayer font0 m.id comps) := by
  intro masters
  induction masters with
  | nil =>
    intro g m h
    rcases h with h | h
    · exact absurd h (List.not_mem_nil m)
    · exact h
  | cons m0 rest ih =>
    intro g m h
    rw [List.foldl_cons]
    apply ih
    rcases h with h | h
    · rcases List.mem_cons.mp h with h | h
      · right
        subst h
        exact layerOfGlyph_setLayer_self g m.id (expLayer font0 m.id comps)
      · left; exact h
    · by_cases hid : m.id = m0.id
      · right
        rw [hid, layerOfGlyph_setLayer_self]
      · right
        rw [layerOfGlyph_setLayer_ne g m0.id _ m.id hid]
        exact h

/-- The per-master loop, when no component name collides with the new
glyph's name and every component glyph found in the font has a layer for
each master of the list, completes normally: it assigns the expected layer
for every master and logs the per-master missing-component warnings. -/
lemma mastersLoop_ok (font0 : GSFont) (gname : String) (comps : List String)
    (hne : ∀ c ∈ comps, ¬ c = gname) :
    ∀ (masters : List GSFontMaster),
      (∀ c ∈ comps, ∀ g, findGlyph font0 c = some g →
        ∀ m ∈ masters, (layerOfGlyph g m.id).isSome) →
      ∀ (g : GSGlyph), g.name = gname → ∀ logs : List String,
        mastersLoop font0 gname comps masters g logs =
          (masters.foldl
            (fun g2 m => setLayer g2 m.id (expLayer font0 m.id comps)) g,
           logs ++ (masters.map (fun _ => missLogs font0 comps)).flatten,
           true) := by
  intro masters
  induction masters with
  | nil =>
    intro _ g _ logs
    simp [mastersLoop]
  | cons m rest ih =>
    intro hlay g hg logs
    have hne' : ∀ c ∈ comps, ¬ c = g.name := by rw [hg]; exact hne
    have hplace :
        placeComponents { font0 with glyphs := font0.glyphs ++ [g] } m.id
          comps [] 0 [] =
        .ok (expComps font0 m.id comps 0, totWidth font0 m.id comps,
             missLogs font0 comps) := by
      rw [placeComponents_ok { font0 with glyphs := font0.glyphs ++ [g] } m.id
        comps ?hlay [] 0 []]
      · rw [expComps_append_ne font0 g m.id comps hne',
            totWidth_append_ne font0 g m.id comps hne',
            missLogs_append_ne font0 g comps hne']
        simp
      case hlay =>
        intro c hc g2 hg2
        rw [findGlyph_append_ne font0 g c (hne' c hc)] at hg2
        exact hlay c hc g2 hg2 m (by simp)
    rw [mastersLoop, hplace]
    simp only [List.foldl_cons, List.map_cons, List.flatten_cons]
    have hfold : GSLayer.mk m.id (totWidth font0 m.id comps)
        (expComps font0 m.id comps 0) = expLayer font0 m.id comps := rfl
    rw [hfold]
    rw [ih (fun c hc g2 hg2 m2 hm2 => hlay c hc g2 hg2 m2 (by simp [hm2]))
      (setLayer g m.id (expLayer font0 m.id comps)) (by rw [name_setLayer, hg])
      (logs ++ missLogs font0 comps)]
    simp [expLayer, List.append_assoc]

/-- The names of the expected placed components are exactly the component
names found in the font, in order. -/
lemma expComps_names (font : GSFont) (mid : String) :
    ∀ (comps : List String) (x : Int),
      (expComps font mid comps x).map (fun comp => comp.componentName) =
        comps.filter (fun c => (findGlyph font c).isSome) := by
  intro comps
  induction comps with
  | nil => intro x; rfl
  | cons c rest ih =>
    intro x
    cases hc : (findGlyph font c).isSome with
    | true => simp [expComps, hc, List.filter_cons, ih]
    | false => simp [expComps, hc, List.filter_cons, ih]

/-- Total width of a cons. -/
lemma totWidth_cons (font : GSFont) (mid c : String) (rest : List String) :
    totWidth font mid (c :: rest) =
      compWidth font mid c + totWidth font mid rest := by
  simp [totWidth]

/-- When every component name is found, each expected placed component
sits at the starting cursor plus the total width of the preceding
components. -/
lemma expComps_position (font : GSFont) (mid : String) :
    ∀ comps : List String, (∀ c ∈ comps, (findGlyph font c).isSome) →
      ∀ (x : Int) (k : Nat) (hk : k < (expComps font mid comps x).length),
        ((expComps font mid comps x).get ⟨k, hk⟩).position.1 =
          x + totWidth font mid (comps.take k) := by
  intro comps
  induction comps with
  | nil => intro _ x k hk; simp [expComps] at hk
  | cons c rest ih =>
    intro h x k hk
    have hc : (findGlyph font c).isSome = true := h c (by simp)
    have hrest : ∀ c2 ∈ rest, (findGlyph font c2).isSome :=
      fun c2 hc2 => h c2 (by simp [hc2])
    cases k with
    | zero =>
      simp [expComps, hc, totWidth]
    | succ k' =>
      have hk' : k' < (expComps font mid rest (x + compWidth font mid c)).length := by
        have := hk
        simp only [expComps, hc, if_true, List.length_cons] at this
        omega
      have hget :
          (expComps font mid (c :: rest) x).get ⟨k' + 1, hk⟩ =
            (expComps font mid rest (x + compWidth font mid c)).get ⟨k', hk'⟩ := by
        simp [expComps, hc]
      rw [hget, ih hrest (x + compWidth font mid c) k' hk']
      simp [List.take_succ_cons, totWidth_cons]
      ring

/-- C1: for every table entry processed by create_roman_glyphs (the entry
is in the table and its target name is not yet in the font) and for every
master, when all of the entry's component glyphs exist in the font (each
with a layer for every master, as the host guarantees), the k-th placed
component's horizontal offset equals the sum of the widths, in that
master, of the entry's components 0..k-1 (so the first sits at offset 0),
and the new layer's width equals the sum of all the placed components'
widths in that master. -/
theorem claim_c1 (font : GSFont) (hex gname : String) (comps : List String)
    (_hmem : (hex, gname, comps) ∈ roman_glyphs)
    (hnew : findGlyph font gname = none)
    (hcomps : ∀ c ∈ comps, ∃ g, findGlyph font c = some g ∧
      ∀ m ∈ font.masters, (layerOfGlyph g m.id).isSome) :
    ∃ g', findGlyph (processEntry font (hex, gname, comps)).1 gname = some g' ∧
      ∀ m ∈ font.masters, ∃ L, layerOfGlyph g' m.id = some L ∧
        L.components.map (fun comp => comp.componentName) = comps ∧
        (∀ k (hk : k < L.components.length),
          (L.components.get ⟨k, hk⟩).position.1 =
            totWidth font m.id (comps.take k)) ∧
        L.width = totWidth font m.id comps := by
  have hne : ∀ c ∈ comps, ¬ c = gname := by
    intro c hc h
    obtain ⟨g, hg, _⟩ := hcomps c hc
    rw [h, hnew] at hg
    exact Option.noConfusion hg
  have hfound : ∀ c ∈ comps, (findGlyph font c).isSome := by
    intro c hc
    obtain ⟨g, hg, _⟩ := hcomps c hc
    simp [hg]
  have hlay : ∀ c ∈ comps, ∀ g, findGlyph font c = some g →
      ∀ m ∈ font.masters, (layerOfGlyph g m.id).isSome := by
    intro c hc g hg m hm
    obtain ⟨g0, hg0, hm0⟩ := hcomps c hc
    rw [hg0] at hg
    cases hg
    exact hm0 m hm
  simp only [processEntry, hnew]
  rw [mastersLoop_ok font gname comps hne font.masters hlay _ rfl _]
  set finalG := font.masters.foldl
    (fun g2 m => setLayer g2 m.id (expLayer font m.id comps))
    ({ name := gname
       unicode := if hex == "" then none else some hex
       productionName := if hex == "" then none else some ("uni" ++ hex)
       layers := [] } : GSGlyph) with hfinalG
  have hname : finalG.name = gname := by
    rw [hfinalG, name_foldl_setLayer]
  refine ⟨finalG, ?_, ?_⟩
  · have := findGlyph_append_self font finalG (by rw [hname]; exact hnew)
    rw [hname] at this
    exact this
  · intro m hm
    refine ⟨expLayer font m.id comps, ?_, ?_, ?_, rfl⟩
    · rw [hfinalG]
      exact layerOf_foldl_setLayer font comps font.masters _ m (Or.inl hm)
    · rw [expLayer]
      simp only [expComps_names]
      exact List.filter_eq_self.mpr hfound
    · intro k hk
      have := expComps_position font m.id comps hfound 0 k (by
        simpa [expLayer] using hk)
      simpa [expLayer] using this

/-- Witness for C1 at the table entry for Ⅳ on a concrete font. -/
theorem claim_c1_witness :
    ∃ g', findGlyph (processEntry wFontC1 ("2163", "Ⅳ", ["I", "V"])).1 "Ⅳ" = some g' ∧
      ∀ m ∈ wFontC1.masters, ∃ L, layerOfGlyph g' m.id = some L ∧
        L.components.map (fun comp => comp.componentName) = ["I", "V"] ∧
        (∀ k (hk : k < L.components.length),
          (L.components.get ⟨k, hk⟩).position.1 =
            totWidth wFontC1 m.id (["I", "V"].take k)) ∧
        L.width = totWidth wFontC1 m.id ["I", "V"] :=
  claim_c1 wFontC1 "2163" "Ⅳ" ["I", "V"] (by decide) (by decide) (by
    intro c hc
    rcases List.mem_cons.mp hc with h | h
    · exact ⟨wGlyphI, by rw [h]; decide, by intro m hm; fin_cases hm; decide⟩
    · rcases List.mem_cons.mp h with h2 | h2
      · exact ⟨wGlyphV, by rw [h2]; decide, by intro m hm; fin_cases hm; decide⟩
      · exact absurd h2 (List.not_mem_nil c))

/-- No entry of the static table lists its own target name among its
components. -/
lemma roman_glyphs_name_not_component :
    ∀ e ∈ roman_glyphs, ∀ c ∈ e.2.2, ¬ c = e.2.1 := by decide

/-- Restricting the total width to the component names found in the font
changes nothing: missing names contribute zero width. -/
lemma totWidth_filter (font : GSFont) (mid : String) :
    ∀ comps : List String,
      totWidth font mid (comps.filter (fun c => (findGlyph font c).isSome)) =
        totWidth font mid comps := by
  intro comps
  induction comps with
  | nil => rfl
  | cons c rest ih =>
    cases hc : (findGlyph font c) with
    | none =>
      have hw : compWidth font mid c = 0 := by simp only [compWidth, hc]
      simp [List.filter_cons, hc, totWidth_cons, ih, hw]
    | some g =>
      simp [List.filter_cons, hc, totWidth_cons, ih]

/-- C7: if a component glyph named in a table entry is absent from the
font, create_roman_glyphs still creates the target glyph, logs a warning
naming the missing component, and skips only that component: in every
master's layer the placed components are exactly the found component
names, none referencing the missing one, and the layer's width is the sum
of only the found components' widths.  (The font is assumed to have at
least one master, and glyphs found in the font to have a layer per
master, as the host guarantees.) -/
theorem claim_c7 (font : GSFont) (hex gname : String) (comps : List String)
    (hmem : (hex, gname, comps) ∈ roman_glyphs)
    (hnew : findGlyph font gname = none)
    (hmasters : font.masters ≠ [])
    (hlay : ∀ c ∈ comps, ∀ g, findGlyph font c = some g →
      ∀ m ∈ font.masters, (layerOfGlyph g m.id).isSome)
    (c : String) (hc : c ∈ comps) (hmiss : findGlyph font c = none) :
    ("   ⚠️ Missing component: " ++ c) ∈ (processEntry font (hex, gname, comps)).2 ∧
    ∃ g', findGlyph (processEntry font (hex, gname, comps)).1 gname = some g' ∧
      ∀ m ∈ font.masters, ∃ L, layerOfGlyph g' m.id = some L ∧
        L.components.map (fun comp => comp.componentName) =
          comps.filter (fun c2 => (findGlyph font c2).isSome) ∧
        (∀ comp ∈ L.components, ¬ comp.componentName = c) ∧
        L.width = totWidth font m.id
          (comps.filter (fun c2 => (findGlyph font c2).isSome)) := by
  have hne : ∀ c2 ∈ comps, ¬ c2 = gname :=
    fun c2 hc2 => roman_glyphs_name_not_component (hex, gname, comps) hmem c2 hc2
  simp only [processEntry, hnew]
  rw [mastersLoop_ok font gname comps hne font.masters hlay _ rfl _]
  set finalG := font.masters.foldl
    (fun g2 m => setLayer g2 m.id (expLayer font m.id comps))
    ({ name := gname
       unicode := if hex == "" then none else some hex
       productionName := if hex == "" then none else some ("uni" ++ hex)
       layers := [] } : GSGlyph) with hfinalG
  have hname : finalG.name = gname := by
    rw [hfinalG, name_foldl_setLayer]
  constructor
  · have hmsg : ("   ⚠️ Missing component: " ++ c) ∈ missLogs font comps := by
      unfold missLogs
      exact List.mem_map_of_mem _
        (List.mem_filter.mpr ⟨hc, by simp [hmiss]⟩)
    obtain ⟨m0, hm0⟩ := List.exists_mem_of_ne_nil font.masters hmasters
    have hblock : missLogs font comps ∈
        font.masters.map (fun _ => missLogs font comps) :=
      List.mem_map_of_mem _ hm0
    simp only []
    refine List.mem_append.mpr (Or.inr ?_)
    exact List.mem_flatten.mpr ⟨missLogs font comps, hblock, hmsg⟩
  · refine ⟨finalG, ?_, ?_⟩
    · have := findGlyph_append_self font finalG (by rw [hname]; exact hnew)
      rw [hname] at this
      exact this
    · intro m hm
      refine ⟨expLayer font m.id comps, ?_, ?_, ?_, ?_⟩
      · rw [hfinalG]
        exact layerOf_foldl_setLayer font comps font.masters _ m (Or.inl hm)
      · rw [expLayer]
        simp only [expComps_names]
      · intro comp hcomp heq
        have hmm : comp.componentName ∈
            (expLayer font m.id comps).components.map
              (fun comp2 => comp2.componentName) :=
          List.mem_map_of_mem _ hcomp
        rw [expLayer] at hmm
        simp only [expComps_names] at hmm
        have := (List.mem_filter.mp hmm).2
        rw [heq, hmiss] at this
        simp at this
      · rw [expLayer]
        simp only [totWidth_filter]

/-- Witness for C7 at the table entry for Ⅳ, whose component V is absent
from the witness font. -/
theorem claim_c7_witness :
    ("   ⚠️ Missing component: " ++ "V") ∈
      (processEntry wFontC7 ("2163", "Ⅳ", ["I", "V"])).2 ∧
    ∃ g', findGlyph (processEntry wFontC7 ("2163", "Ⅳ", ["I", "V"])).1 "Ⅳ" = some g' ∧
      ∀ m ∈ wFontC7.masters, ∃ L, layerOfGlyph g' m.id = some L ∧
        L.components.map (fun comp => comp.componentName) =
          (["I", "V"].filter (fun c2 => (findGlyph wFontC7 c2).isSome)) ∧
        (∀ comp ∈ L.components, ¬ comp.componentName = "V") ∧
        L.width = totWidth wFontC7 m.id
          (["I", "V"].filter (fun c2 => (findGlyph wFontC7 c2).isSome)) :=
  claim_c7 wFontC7 "2163" "Ⅳ" ["I", "V"] (by decide) (by decide) (by decide)
    (by
      intro c2 hc2 g hg m hm
      fin_cases hm
      rcases List.mem_cons.mp hc2 with h | h
      · subst h
        rw [show findGlyph wFontC7 "I" = some wGlyphI from by decide] at hg
        cases hg
        decide
      · rcases List.mem_cons.mp h with h2 | h2
        · subst h2
          rw [show findGlyph wFontC7 "V" = none from by decide] at hg
          exact Option.noConfusion hg
        · exact absurd h2 (List.not_mem_nil c2))
    "V" (by decide) (by decide)

/-- A table entry whose target name already exists is skipped: the font
is returned unchanged with only the skip log line. -/
lemma processEntry_skip (font : GSFont) (hex gname : String)
    (comps : List String) (h : (findGlyph font gname).isSome) :
    processEntry font (hex, gname, comps) =
      (font, ["⚠️ Skipping " ++ gname ++ ": Exists."]) := by
  obtain ⟨g, hg⟩ := Option.isSome_iff_exists.mp h
  simp [processEntry, hg]

/-- The per-master loop does not change the glyph's name. -/
lemma mastersLoop_name (font0 : GSFont) (gname : String) (comps : List String) :
    ∀ (masters : List GSFontMaster) (g : GSGlyph) (logs : List String),
      (mastersLoop font0 gname comps masters g logs).1.name = g.name := by
  intro masters
  induction masters with
  | nil => intro g logs; rfl
  | cons m rest ih =>
    intro g logs
    rw [mastersLoop]
    cases placeComponents { font0 with glyphs := font0.glyphs ++ [g] }
        m.id comps [] 0 [] with
    | error errLogs => rfl
    | ok res =>
      obtain ⟨placed, x, subLogs⟩ := res
      rw [ih, name_setLayer]

/-- After processing a table entry, a glyph of the entry's target name is
present in the font. -/
lemma processEntry_creates (font : GSFont) (e : String × String × List String) :
    (findGlyph (processEntry font e).1 e.2.1).isSome := by
  obtain ⟨hex, gname, comps⟩ := e
  cases hf : findGlyph font gname with
  | some g =>
    rw [processEntry_skip font hex gname comps (by simp [hf])]
    simp [hf]
  | none =>
    simp only [processEntry, hf]
    rcases hml : mastersLoop font gname comps font.masters
        { name := gname
          unicode := if hex == "" then none else some hex
          productionName := if hex == "" then none else some ("uni" ++ hex)
          layers := [] } ["✅ Created " ++ gname] with ⟨finalG, logs2, okb⟩
    have hname : finalG.name = gname := by
      have := mastersLoop_name font gname comps font.masters
        { name := gname
          unicode := if hex == "" then none else some hex
          productionName := if hex == "" then none else some ("uni" ++ hex)
          layers := [] } ["✅ Created " ++ gname]
      rw [hml] at this
      exact this
    have := findGlyph_append_self font finalG (by rw [hname]; exact hf)
    rw [hname] at this
    simp [this]

/-- Glyph presence is preserved by processing any table entry. -/
lemma processEntry_mono (font : GSFont) (e : String × String × List String)
    (n : String) (h : (findGlyph font n).isSome) :
    (findGlyph (processEntry font e).1 n).isSome := by
  obtain ⟨hex, gname, comps⟩ := e
  cases hf : findGlyph font gname with
  | some g =>
    rw [processEntry_skip font hex gname comps (by simp [hf])]
    exact h
  | none =>
    simp only [processEntry, hf]
    rcases hml : mastersLoop font gname comps font.masters
        { name := gname
          unicode := if hex == "" then none else some hex
          productionName := if hex == "" then none else some ("uni" ++ hex)
          layers := [] } ["✅ Created " ++ gname] with ⟨finalG, logs2, okb⟩
    obtain ⟨gh, hgh⟩ := Option.isSome_iff_exists.mp h
    simp [findGlyph_append_found font finalG gh n hgh]

/-- Glyph presence is preserved by the entry loop. -/
lemma createLoop_fst_mono :
    ∀ (l : List (String × String × List String)) (font : GSFont)
      (logs : List String) (n : String),
      (findGlyph font n).isSome →
      (findGlyph (createLoop font l logs).1 n).isSome := by
  intro l
  induction l with
  | nil => intro font logs n h; exact h
  | cons e rest ih =>
    intro font logs n h
    rcases hp : processEntry font e with ⟨f', ls⟩
    rw [createLoop, hp]
    apply ih
    have := processEntry_mono font e n h
    rw [hp] at this
    exact this

/-- After the entry loop, every entry of the processed list has a glyph of
its target name in the font. -/
lemma createLoop_creates :
    ∀ (l : List (String × String × List String)) (font : GSFont)
      (logs : List String) (e : String × String × List String),
      e ∈ l → (findGlyph (createLoop font l logs).1 e.2.1).isSome := by
  intro l
  induction l with
  | nil => intro font logs e he; exact absurd he (List.not_mem_nil e)
  | cons e0 rest ih =>
    intro font logs e he
    rcases hp : processEntry font e0 with ⟨f', ls⟩
    rw [createLoop, hp]
    rcases List.mem_cons.mp he with h | h
    · subst h
      apply createLoop_fst_mono
      have := processEntry_creates font e
      rw [hp] at this
      exact this
    · exact ih f' (logs ++ ls) e h

/-- The entry loop leaves the font unchanged when every entry's target
name is already present. -/
lemma createLoop_noop :
    ∀ (l : List (String × String × List String)) (font : GSFont)
      (logs : List String),
      (∀ e ∈ l, (findGlyph font e.2.1).isSome) →
      (createLoop font l logs).1 = font := by
  intro l
  induction l with
  | nil => intro font logs _; rfl
  | cons e rest ih =>
    intro font logs h
    obtain ⟨hex, gname, comps⟩ := e
    have hskip := processEntry_skip font hex gname comps
      (h (hex, gname, comps) (by simp))
    rw [createLoop, hskip]
    exact ih font _ (fun e2 he2 => h e2 (by simp [he2]))

/-- C4: a table entry whose target glyph already exists is skipped with
the font unchanged (so the existing glyph and its layers are untouched),
and running create_roman_glyphs twice in succession produces no change on
the second run: the second run's font equals the first run's. -/
theorem claim_c4 : ∀ font : GSFont,
    (∀ (hex gname : String) (comps : List String),
      (findGlyph font gname).isSome →
      processEntry font (hex, gname, comps) =
        (font, ["⚠️ Skipping " ++ gname ++ ": Exists."])) ∧
    (create_roman_glyphs (create_roman_glyphs font).1).1 =
      (create_roman_glyphs font).1 := by
  intro font
  constructor
  · intro hex gname comps h
    exact processEntry_skip font hex gname comps h
  · unfold create_roman_glyphs
    apply createLoop_noop
    intro e he
    exact createLoop_creates roman_glyphs font [] e he

/-- Witness for C4 on a concrete one-glyph font. -/
theorem claim_c4_witness :
    processEntry wFontC7 ("0000", "I", []) =
      (wFontC7, ["⚠️ Skipping " ++ "I" ++ ": Exists."]) ∧
    (create_roman_glyphs (create_roman_glyphs wFontC7).1).1 =
      (create_roman_glyphs wFontC7).1 :=
  ⟨(claim_c4 wFontC7).1 "0000" "I" [] (by decide), (claim_c4 wFontC7).2⟩

/-- The stripped text occurs contiguously inside the original text. -/
lemma pyStrip_occurs_in (s : String) : (pyStrip s).data <:+: s.data := by
  unfold pyStrip
  show ((s.data.dropWhile isSpaceChar).reverse.dropWhile isSpaceChar).reverse <:+:
    s.data
  have h1 : s.data.dropWhile isSpaceChar <:+ s.data :=
    List.dropWhile_suffix isSpaceChar
  have h2 : ((s.data.dropWhile isSpaceChar).reverse.dropWhile isSpaceChar).reverse <+:
      s.data.dropWhile isSpaceChar := by
    have h2' : ((s.data.dropWhile isSpaceChar).reverse.dropWhile isSpaceChar).reverse <+:
        (s.data.dropWhile isSpaceChar).reverse.reverse :=
      List.reverse_prefix.mpr (List.dropWhile_suffix isSpaceChar)
    rwa [List.reverse_reverse] at h2'
  exact h2.isInfix.trans h1.isInfix

/-- A contiguous occurrence makes the containment test true. -/
lemma strContains_of_occurs {s pat : String} (h : pat.data <:+: s.data) :
    strContains s pat = true := by
  unfold strContains
  exact decide_eq_true h

/-- The rule block's stripped text occurs inside any text ending with the
rule block after a newline. -/
lemma strContains_strip_append (a rules : String) :
    strContains (a ++ "\n" ++ rules) (pyStrip rules) = true := by
  apply strContains_of_occurs
  have h2 : rules.data <:+: (a ++ "\n" ++ rules).data := by
    rw [String.data_append]
    exact (List.suffix_append (a ++ "\n").data rules.data).isInfix
  exact (pyStrip_occurs_in rules).trans h2

/-- The rule block's stripped text occurs inside the rule block itself. -/
lemma strContains_strip_self (rules : String) :
    strContains rules (pyStrip rules) = true :=
  strContains_of_occurs (pyStrip_occurs_in rules)

/-- Every member of a list occurs contiguously in its comma join. -/
lemma mem_joinComma_occurs :
    ∀ (l : List String) (a : String), a ∈ l → a.data <:+: (joinComma l).data := by
  intro l
  induction l with
  | nil => intro a ha; exact absurd ha (List.not_mem_nil a)
  | cons b rest ih =>
    intro a ha
    cases rest with
    | nil =>
      rcases List.mem_cons.mp ha with h | h
      · subst h; exact List.infix_rfl
      · exact absurd h (List.not_mem_nil a)
    | cons c rest2 =>
      rcases List.mem_cons.mp ha with h | h
      · subst h
        show a.data <:+: (a ++ ", " ++ joinComma (c :: rest2)).data
        rw [String.data_append, String.data_append]
        exact ((List.prefix_append a.data ", ".data).trans
          (List.prefix_append _ _)).isInfix
      · show a.data <:+: (b ++ ", " ++ joinComma (c :: rest2)).data
        rw [String.data_append]
        exact (ih a h).trans (List.suffix_append _ _).isInfix

/-- update_feature never changes the font's glyphs. -/
lemma update_feature_glyphs (font : GSFont) (fname rules : String) :
    (update_feature font fname rules).1.glyphs = font.glyphs := by
  simp only [update_feature]
  repeat' split
  all_goals rfl

/-- update_feature never changes the font's masters. -/
lemma update_feature_masters (font : GSFont) (fname rules : String) :
    (update_feature font fname rules).1.masters = font.masters := by
  simp only [update_feature]
  repeat' split
  all_goals rfl

/-- Searching the feature list after the in-place code update finds the
same feature with the new code. -/
lemma find?_updateFirstFeature :
    ∀ (l : List GSFeature) (fname code : String),
      (updateFirstFeature l fname code).find? (fun f => f.name == fname) =
        (l.find? (fun f => f.name == fname)).map
          (fun f => { f with code := code }) := by
  intro l
  induction l with
  | nil => intro fname code; rfl
  | cons f rest ih =>
    intro fname code
    cases hf : (f.name == fname) with
    | true =>
      simp only [updateFirstFeature, hf, if_true, List.find?]
      have : ({ f with code := code } : GSFeature).name = f.name := rfl
      simp [List.find?, this, hf]
    | false =>
      simp only [updateFirstFeature, hf, Bool.false_eq_true, if_false, List.find?]
      simp [List.find?, hf, ih]

/-- Membership after the in-place code update: each element is an old
element or an old element with the new code. -/
lemma mem_updateFirstFeature :
    ∀ (l : List GSFeature) (fname code : String) (f' : GSFeature),
      f' ∈ updateFirstFeature l fname code →
      f' ∈ l ∨ ∃ f ∈ l, f' = { f with code := code } := by
  intro l
  induction l with
  | nil => intro fname code f' h; exact absurd h (List.not_mem_nil f')
  | cons f rest ih =>
    intro fname code f' h
    cases hf : (f.name == fname) with
    | true =>
      rw [updateFirstFeature, if_pos hf] at h
      rcases List.mem_cons.mp h with h2 | h2
      · right; exact ⟨f, by simp, h2⟩
      · left; simp [h2]
    | false =>
      rw [updateFirstFeature, if_neg (by simp [hf])] at h
      rcases List.mem_cons.mp h with h2 | h2
      · left; simp [h2]
      · rcases ih fname code f' h2 with h3 | ⟨f2, hf2, he⟩
        · left; simp [h3]
        · right; exact ⟨f2, by simp [hf2], he⟩

/-- When every referenced glyph is present, the missing list is empty. -/
lemma missing_filter_nil (font : GSFont) (rules : String)
    (hall : ∀ g ∈ referencedGlyphs rules, g ∈ glyphNames font) :
    (referencedGlyphs rules).filter
      (fun g => !(glyphNames font).contains g) = [] := by
  rw [List.filter_eq_nil_iff]
  intro g hg
  simp [hall g hg]

/-- The abort branch of update_feature: a referenced glyph is absent, so
the font is returned unchanged with the missing-glyphs log line. -/
lemma update_feature_missing (font : GSFont) (fname rules : String)
    (h : ∃ g ∈ referencedGlyphs rules, g ∉ glyphNames font) :
    update_feature font fname rules =
      (font, ["⚠️ Cannot add " ++ fname ++ ". Missing glyphs: " ++
        joinComma ((referencedGlyphs rules).filter
          (fun g => !(glyphNames font).contains g))]) := by
  obtain ⟨g, hg, hng⟩ := h
  have hmem : g ∈ (referencedGlyphs rules).filter
      (fun g => !(glyphNames font).contains g) :=
    List.mem_filter.mpr ⟨hg, by simp [hng]⟩
  have hne : ((referencedGlyphs rules).filter
      (fun g => !(glyphNames font).contains g)).isEmpty = false := by
    cases hl : ((referencedGlyphs rules).filter
        (fun g => !(glyphNames font).contains g)) with
    | nil => rw [hl] at hmem; exact absurd hmem (List.not_mem_nil g)
    | cons a l => simp [hl, List.isEmpty]
  simp only [update_feature, hne, Bool.false_eq_true, if_false]

/-- The already-present branch of update_feature. -/
lemma update_feature_found_dup (font : GSFont) (fname rules : String)
    (f : GSFeature)
    (hall : ∀ g ∈ referencedGlyphs rules, g ∈ glyphNames font)
    (hf : font.features.find? (fun x => x.name == fname) = some f)
    (hsub : strContains f.code (pyStrip rules) = true) :
    update_feature font fname rules =
      (font, ["⚠️ Rules already exist in " ++ fname]) := by
  simp only [update_feature, missing_filter_nil font rules hall,
    List.isEmpty_nil, if_true, hf, hsub]

/-- The append branch of update_feature: the rules are not yet present in
the found feature's code, which becomes its stripped old code, a newline,
and the rule block. -/
lemma update_feature_found_new (font : GSFont) (fname rules : String)
    (f : GSFeature)
    (hall : ∀ g ∈ referencedGlyphs rules, g ∈ glyphNames font)
    (hf : font.features.find? (fun x => x.name == fname) = some f)
    (hsub : strContains f.code (pyStrip rules) = false) :
    update_feature font fname rules =
      ({ font with
          features := updateFirstFeature font.features fname
            (pyStrip f.code ++ "\n" ++ rules) },
       ["✅ Updated existing " ++ fname ++ " feature"]) := by
  simp only [update_feature, missing_filter_nil font rules hall,
    List.isEmpty_nil, if_true, hf, hsub, Bool.false_eq_true, if_false]

/-- The creation branch of update_feature: no feature of the name exists,
so one is appended with the rule block as its verbatim code. -/
lemma update_feature_notfound (font : GSFont) (fname rules : String)
    (hall : ∀ g ∈ referencedGlyphs rules, g ∈ glyphNames font)
    (hf : font.features.find? (fun x => x.name == fname) = none) :
    update_feature font fname rules =
      ({ font with
          features := font.features ++ [{ name := fname, code := rules }] },
       ["✅ Created new " ++ fname ++ " feature"]) := by
  simp only [update_feature, missing_filter_nil font rules hall,
    List.isEmpty_nil, if_true, hf]

/-- C3: for each of the two fixed rule blocks, if any glyph name extracted
as a right-hand-side identifier after a by keyword is absent from the
font's glyphs, update_feature aborts without mutating the font at all (in
particular neither the feature list nor any feature's code), and the
single log line it prints names every missing glyph. -/
theorem claim_c3 (font : GSFont) (fname rules : String)
    (_hfixed : (fname = "ss01" ∧ rules = ss01_rules) ∨
      (fname = "liga" ∧ rules = liga_rules))
    (hmiss : ∃ g ∈ referencedGlyphs rules, g ∉ glyphNames font) :
    (update_feature font fname rules).1 = font ∧
    ∀ g ∈ referencedGlyphs rules, g ∉ glyphNames font →
      ∃ msg ∈ (update_feature font fname rules).2, strContains msg g = true := by
  rw [update_feature_missing font fname rules hmiss]
  refine ⟨rfl, ?_⟩
  intro g hg hng
  refine ⟨"⚠️ Cannot add " ++ fname ++ ". Missing glyphs: " ++
    joinComma ((referencedGlyphs rules).filter
      (fun g => !(glyphNames font).contains g)), by simp, ?_⟩
  apply strContains_of_occurs
  have hmem : g ∈ (referencedGlyphs rules).filter
      (fun g => !(glyphNames font).contains g) :=
    List.mem_filter.mpr ⟨hg, by simp [hng]⟩
  have h1 := mem_joinComma_occurs _ g hmem
  rw [String.data_append]
  exact h1.trans (List.suffix_append _ _).isInfix

/-- Witness for C3 on the empty font with the fixed ss01 block. -/
theorem claim_c3_witness :
    (update_feature wFontEmpty "ss01" ss01_rules).1 = wFontEmpty ∧
    ∀ g ∈ referencedGlyphs ss01_rules, g ∉ glyphNames wFontEmpty →
      ∃ msg ∈ (update_feature wFontEmpty "ss01" ss01_rules).2,
        strContains msg g = true :=
  claim_c3 wFontEmpty "ss01" ss01_rules (Or.inl ⟨rfl, rfl⟩)
    ⟨"One-roman", by decide, by decide⟩

/-- C5: merging a rule block into an existing feature whose code already
contains the stripped rule block as a substring leaves the font (feature
list and all feature codes) unchanged. -/
theorem claim_c5 (font : GSFont) (fname rules : String) (f : GSFeature)
    (hf : font.features.find? (fun x => x.name == fname) = some f)
    (hsub : strContains f.code (pyStrip rules) = true) :
    (update_feature font fname rules).1 = font := by
  by_cases hall : ∀ g ∈ referencedGlyphs rules, g ∈ glyphNames font
  · rw [update_feature_found_dup font fname rules f hall hf hsub]
  · push_neg at hall
    rw [update_feature_missing font fname rules hall]

/-- Witness for C5. -/
theorem claim_c5_witness :
    (update_feature wFontC5 "ss01" "x").1 = wFontC5 :=
  claim_c5 wFontC5 "ss01" "x" { name := "ss01", code := "x" }
    (by decide) (by decide)

/-- Counterexample to C6 as stated: merging the block "r" into the
existing ss01 feature (whose code "old " is found and does not contain the
trimmed block) produces the code "old\nr", of which the prior code "old "
is not a prefix — the prior code is not preserved unchanged, because the
script strips it before appending. -/
theorem claim_c6_counterexample :
    wFontC6.features.map (fun f => f.code) = ["old "] ∧
    wFontC6.features.find? (fun x => x.name == "ss01") =
      some { name := "ss01", code := "old " } ∧
    strContains "old " (pyStrip "r") = false ∧
    (update_feature wFontC6 "ss01" "r").1.features.map (fun f => f.code) =
      ["old\nr"] ∧
    ("old ".data.isPrefixOf "old\nr".data) = false := by
  decide

/-- C6 (amended): when an existing feature of the given name is found, the
trimmed rule block is not a substring of its code, and no referenced glyph
is missing, update_feature replaces that (first-found) feature's code with
its prior code stripped of leading and trailing whitespace, followed by a
newline and then the rule block; the rest of the font is unchanged. -/
theorem claim_c6 (font : GSFont) (fname rules : String) (f : GSFeature)
    (hf : font.features.find? (fun x => x.name == fname) = some f)
    (hsub : strContains f.code (pyStrip rules) = false)
    (hall : ∀ g ∈ referencedGlyphs rules, g ∈ glyphNames font) :
    (update_feature font fname rules).1.features =
      updateFirstFeature font.features fname (pyStrip f.code ++ "\n" ++ rules) ∧
    (update_feature font fname rules).1.glyphs = font.glyphs ∧
    (update_feature font fname rules).1.masters = font.masters := by
  rw [update_feature_found_new font fname rules f hall hf hsub]
  exact ⟨rfl, rfl, rfl⟩

/-- Witness for the amended C6 on the counterexample font. -/
theorem claim_c6_witness :
    (update_feature wFontC6 "ss01" "r").1.features =
      updateFirstFeature wFontC6.features "ss01" (pyStrip "old " ++ "\n" ++ "r") ∧
    (update_feature wFontC6 "ss01" "r").1.glyphs = wFontC6.glyphs ∧
    (update_feature wFontC6 "ss01" "r").1.masters = wFontC6.masters :=
  claim_c6 wFontC6 "ss01" "r" { name := "ss01", code := "old " }
    (by decide) (by decide) (by decide)

/-- C9: when the font contains every glyph the rule block references,
calling update_feature twice with the same feature name and rules leaves
the font in the same state as calling it once: the second call always
takes the already-present branch. -/
theorem claim_c9 (font : GSFont) (fname rules : String)
    (hall : ∀ g ∈ referencedGlyphs rules, g ∈ glyphNames font) :
    (update_feature (update_feature font fname rules).1 fname rules).1 =
      (update_feature font fname rules).1 := by
  cases hf : font.features.find? (fun x => x.name == fname) with
  | some f =>
    cases hsub : strContains f.code (pyStrip rules) with
    | true =>
      rw [update_feature_found_dup font fname rules f hall hf hsub]
      rw [update_feature_found_dup font fname rules f hall hf hsub]
    | false =>
      rw [update_feature_found_new font fname rules f hall hf hsub]
      have hall1 : ∀ g ∈ referencedGlyphs rules,
          g ∈ glyphNames { font with
            features := updateFirstFeature font.features fname
              (pyStrip f.code ++ "\n" ++ rules) } := hall
      have hf1 : ({ font with
          features := updateFirstFeature font.features fname
            (pyStrip f.code ++ "\n" ++ rules) } : GSFont).features.find?
            (fun x => x.name == fname) =
          some { f with code := pyStrip f.code ++ "\n" ++ rules } := by
        show (updateFirstFeature font.features fname
          (pyStrip f.code ++ "\n" ++ rules)).find? (fun x => x.name == fname) = _
        rw [find?_updateFirstFeature, hf]
        rfl
      rw [update_feature_found_dup _ fname rules
        { f with code := pyStrip f.code ++ "\n" ++ rules } hall1 hf1
        (strContains_strip_append (pyStrip f.code) rules)]
  | none =>
    rw [update_feature_notfound font fname rules hall hf]
    have hall1 : ∀ g ∈ referencedGlyphs rules,
        g ∈ glyphNames { font with
          features := font.features ++ [{ name := fname, code := rules }] } := hall
    have hf1 : ({ font with
        features := font.features ++ [{ name := fname, code := rules }] } :
          GSFont).features.find? (fun x => x.name == fname) =
        some { name := fname, code := rules } := by
      show (font.features ++ [({ name := fname, code := rules } : GSFeature)]).find?
        (fun x => x.name == fname) = _
      rw [find?_append_single, hf]
      simp
    rw [update_feature_found_dup _ fname rules { name := fname, code := rules }
      hall1 hf1 (strContains_strip_self rules)]

/-- Witness for C9 with a concrete one-rule block. -/
theorem claim_c9_witness :
    (update_feature (update_feature wFontC9 "ss01" "sub a by B;").1
        "ss01" "sub a by B;").1 =
      (update_feature wFontC9 "ss01" "sub a by B;").1 :=
  claim_c9 wFontC9 "ss01" "sub a by B;" (by decide)

/-- Counterexample to C8 as stated: on the creation path the new ss01
feature's code is the rule block verbatim, and on the append path it is
the stripped old code, a newline and the rule block; neither resulting
code even contains the word "feature", so on no code path are the rules
wrapped in a feature block. -/
theorem claim_c8_counterexample :
    ((update_feature wFontC8A "ss01" ss01_rules).1.features.map
      (fun f => f.code) = [ss01_rules]) ∧
    ((update_feature wFontC8B "ss01" ss01_rules).1.features.map
      (fun f => f.code) = ["old\n" ++ ss01_rules]) ∧
    strContains ss01_rules "feature" = false ∧
    strContains ("old\n" ++ ss01_rules) "feature" = false := by
  decide

/-- C8 (amended): the rule text update_feature writes is always raw
substitution statements: every feature of the resulting font either is an
untouched feature of the original font, or has the rule block verbatim as
its code (creation path), or has some original feature's stripped code
followed by a newline and the rule block (append path); no path wraps the
rules in a feature block. -/
theorem claim_c8 (font : GSFont) (fname rules : String) :
    ∀ f' ∈ (update_feature font fname rules).1.features,
      f' ∈ font.features ∨ f'.code = rules ∨
      ∃ f ∈ font.features, f'.code = pyStrip f.code ++ "\n" ++ rules := by
  intro f' hf'
  by_cases hall : ∀ g ∈ referencedGlyphs rules, g ∈ glyphNames font
  · cases hff : font.features.find? (fun x => x.name == fname) with
    | some f =>
      cases hsub : strContains f.code (pyStrip rules) with
      | true =>
        rw [update_feature_found_dup font fname rules f hall hff hsub] at hf'
        exact Or.inl hf'
      | false =>
        rw [update_feature_found_new font fname rules f hall hff hsub] at hf'
        rcases mem_updateFirstFeature font.features fname _ f' hf' with h | ⟨f2, _, he⟩
        · exact Or.inl h
        · exact Or.inr (Or.inr ⟨f, List.mem_of_find?_eq_some hff, by rw [he]⟩)
    | none =>
      rw [update_feature_notfound font fname rules hall hff] at hf'
      rcases List.mem_append.mp hf' with h | h
      · exact Or.inl h
      · refine Or.inr (Or.inl ?_)
        have : f' = { name := fname, code := rules } := by simpa using h
        rw [this]
  · push_neg at hall
    rw [update_feature_missing font fname rules hall] at hf'
    exact Or.inl hf'

/-- Witness for the amended C8 on the creation path. -/
theorem claim_c8_witness :
    ({ name := "ss01", code := ss01_rules } : GSFeature) ∈ wFontC8A.features ∨
    ({ name := "ss01", code := ss01_rules } : GSFeature).code = ss01_rules ∨
    ∃ f ∈ wFontC8A.features,
      ({ name := "ss01", code := ss01_rules } : GSFeature).code =
        pyStrip f.code ++ "\n" ++ ss01_rules :=
  claim_c8 wFontC8A "ss01" ss01_rules { name := "ss01", code := ss01_rules }
    (by decide)

/-- First index across an append whose left part misses the name. -/
lemma firstIdx_append_of_not_mem :
    ∀ (l l2 : List String) (a : String), a ∉ l →
      firstIdx (l ++ l2) a = l.length + firstIdx l2 a := by
  intro l
  induction l with
  | nil => intro l2 a _; simp
  | cons x xs ih =>
    intro l2 a ha
    have hxa : (x == a) = false := by
      simp only [beq_eq_false_iff_ne, ne_eq]
      intro h
      exact ha (by simp [h])
    have hrec := ih l2 a (fun h => ha (List.mem_cons_of_mem x h))
    simp only [List.cons_append, firstIdx, hxa, Bool.false_eq_true, if_false,
      List.length_cons, List.append_eq, hrec]
    omega

/-- Two names present in a list with the same first index are equal. -/
lemma firstIdx_inj :
    ∀ (l : List String) (a b : String), a ∈ l → b ∈ l →
      firstIdx l a = firstIdx l b → a = b := by
  intro l
  induction l with
  | nil => intro a b ha _ _; exact absurd ha (List.not_mem_nil a)
  | cons x xs ih =>
    intro a b ha hb heq
    by_cases hax : x = a
    · by_cases hbx : x = b
      · rw [← hax, hbx]
      · have h1 : (x == a) = true := by simp [hax]
        have h2 : (x == b) = false := by simp [hbx]
        simp [firstIdx, h1, h2] at heq
    · by_cases hbx : x = b
      · have h1 : (x == a) = false := by simp [hax]
        have h2 : (x == b) = true := by simp [hbx]
        simp [firstIdx, h1, h2] at heq
      · have h1 : (x == a) = false := by simp [hax]
        have h2 : (x == b) = false := by simp [hbx]
        simp only [firstIdx, h1, h2, Bool.false_eq_true, if_false,
          Nat.add_right_cancel_iff] at heq
        exact ih a b ((List.mem_cons.mp ha).resolve_left (fun h => hax h.symm))
          ((List.mem_cons.mp hb).resolve_left (fun h => hbx h.symm)) heq

/-- A name in the feature-name list is found by the feature search, and
the found feature bears the name. -/
lemma mem_featureNames_find? (font : GSFont) (n : String)
    (h : n ∈ featureNames font) :
    ∃ f, font.features.find? (fun f => f.name == n) = some f ∧ f.name = n := by
  unfold featureNames at h
  obtain ⟨f, hf, hname⟩ := List.mem_map.mp h
  have hsome : (font.features.find? (fun f => f.name == n)).isSome :=
    List.find?_isSome.mpr ⟨f, hf, by simp [hname]⟩
  obtain ⟨f0, hf0⟩ := Option.isSome_iff_exists.mp hsome
  refine ⟨f0, hf0, ?_⟩
  have := List.find?_some hf0
  simpa using this

/-- The reordering step does nothing when ss01 and liga are not both
present. -/
lemma reorderFeatures_not_both (font : GSFont)
    (h : ¬ ("ss01" ∈ featureNames font ∧ "liga" ∈ featureNames font)) :
    reorderFeatures font = (font, []) := by
  have hb : ((featureNames font).contains "ss01" &&
      (featureNames font).contains "liga") = false := by
    rcases not_and_or.mp h with h1 | h1 <;> simp [h1]
  simp only [reorderFeatures, hb, Bool.false_eq_true, if_false]

/-- The reordering step does nothing when liga's first position does not
precede ss01's. -/
lemma reorderFeatures_ordered (font : GSFont)
    (h : ¬ firstIdx (featureNames font) "liga" <
      firstIdx (featureNames font) "ss01") :
    reorderFeatures font = (font, []) := by
  unfold reorderFeatures
  cases hb : ((featureNames font).contains "ss01" &&
      (featureNames font).contains "liga") with
  | false => rw [if_neg (by rw [hb]; simp)]
  | true => rw [if_pos hb, if_neg h]

/-- The swap branch of the reordering step: both features present with
liga's first position preceding ss01's, so every feature named ss01 or
liga is removed and the first ss01 and liga features are re-appended. -/
lemma reorderFeatures_swap (font : GSFont) (s l : GSFeature)
    (hs : font.features.find? (fun f => f.name == "ss01") = some s)
    (hl : font.features.find? (fun f => f.name == "liga") = some l)
    (hord : firstIdx (featureNames font) "liga" <
      firstIdx (featureNames font) "ss01") :
    reorderFeatures font =
      ({ font with
          features := font.features.filter
            (fun f => !(f.name == "ss01") && !(f.name == "liga")) ++ [s, l] },
       ["✅ Reordered: ss01 now precedes liga"]) := by
  have hsmem : "ss01" ∈ featureNames font := by
    unfold featureNames
    refine List.mem_map.mpr ⟨s, List.mem_of_find?_eq_some hs, ?_⟩
    have := List.find?_some hs
    simpa using this
  have hlmem : "liga" ∈ featureNames font := by
    unfold featureNames
    refine List.mem_map.mpr ⟨l, List.mem_of_find?_eq_some hl, ?_⟩
    have := List.find?_some hl
    simpa using this
  have hb : ((featureNames font).contains "ss01" &&
      (featureNames font).contains "liga") = true := by
    simp [hsmem, hlmem]
  unfold reorderFeatures
  rw [if_pos hb, if_pos hord, hs, hl]

/-- The name of the first-found ss01 feature. -/
lemma find?_name_eq (font : GSFont) (n : String) (f : GSFeature)
    (h : font.features.find? (fun f => f.name == n) = some f) : f.name = n := by
  have := List.find?_some h
  simpa using this

/-- Filtering out ss01 and liga is unaffected by an in-place code update
of a feature bearing one of those names. -/
lemma filter_other_updateFirstFeature :
    ∀ (l : List GSFeature) (fname code : String),
      (fname = "ss01" ∨ fname = "liga") →
      (updateFirstFeature l fname code).filter
        (fun f => !(f.name == "ss01") && !(f.name == "liga")) =
      l.filter (fun f => !(f.name == "ss01") && !(f.name == "liga")) := by
  intro l
  induction l with
  | nil => intro fname code _; rfl
  | cons f rest ih =>
    intro fname code hfn
    cases hf : (f.name == fname) with
    | true =>
      have hname : f.name = fname := by simpa using hf
      have hpred : (!(f.name == "ss01") && !(f.name == "liga")) = false := by
        rcases hfn with h | h <;> simp [hname, h]
      rw [updateFirstFeature, if_pos hf]
      simp [List.filter_cons, hpred]
    | false =>
      rw [updateFirstFeature, if_neg (by simp [hf])]
      rw [List.filter_cons, List.filter_cons, ih fname code hfn]

/-- Filtering out ss01 and liga is unaffected by merging a rule block into
either of those features. -/
lemma update_filter_other (font : GSFont) (fname rules : String)
    (hfn : fname = "ss01" ∨ fname = "liga") :
    (update_feature font fname rules).1.features.filter
      (fun f => !(f.name == "ss01") && !(f.name == "liga")) =
    font.features.filter (fun f => !(f.name == "ss01") && !(f.name == "liga")) := by
  by_cases hall : ∀ g ∈ referencedGlyphs rules, g ∈ glyphNames font
  · cases hff : font.features.find? (fun x => x.name == fname) with
    | some f =>
      cases hsub : strContains f.code (pyStrip rules) with
      | true => rw [update_feature_found_dup font fname rules f hall hff hsub]
      | false =>
        rw [update_feature_found_new font fname rules f hall hff hsub]
        exact filter_other_updateFirstFeature font.features fname _ hfn
    | none =>
      rw [update_feature_notfound font fname rules hall hff]
      show (font.features ++ [({ name := fname, code := rules } : GSFeature)]).filter _ = _
      rw [List.filter_append]
      have : ([({ name := fname, code := rules } : GSFeature)].filter
          (fun f => !(f.name == "ss01") && !(f.name == "liga"))) = [] := by
        rcases hfn with h | h <;> simp [List.filter_cons, h]
      rw [this, List.append_nil]
  · push_neg at hall
    rw [update_feature_missing font fname rules hall]

/-- Filtering out ss01 and liga is unaffected by the reordering step. -/
lemma reorder_filter_other (font : GSFont) :
    (reorderFeatures font).1.features.filter
      (fun f => !(f.name == "ss01") && !(f.name == "liga")) =
    font.features.filter (fun f => !(f.name == "ss01") && !(f.name == "liga")) := by
  by_cases hboth : ("ss01" ∈ featureNames font ∧ "liga" ∈ featureNames font)
  · by_cases hord : firstIdx (featureNames font) "liga" <
        firstIdx (featureNames font) "ss01"
    · obtain ⟨s, hfs, _⟩ := mem_featureNames_find? font "ss01" hboth.1
      obtain ⟨l, hfl, _⟩ := mem_featureNames_find? font "liga" hboth.2
      rw [reorderFeatures_swap font s l hfs hfl hord]
      show (font.features.filter _ ++ [s, l]).filter _ = _
      rw [List.filter_append]
      have h1 : ([s, l].filter
          (fun f => !(f.name == "ss01") && !(f.name == "liga"))) = [] := by
        simp [List.filter_cons, find?_name_eq font "ss01" s hfs,
          find?_name_eq font "liga" l hfl]
      rw [h1, List.append_nil, List.filter_filter]
      simp
    · rw [reorderFeatures_ordered font hord]
  · rw [reorderFeatures_not_both font hboth]

/-- After the reordering step, whenever both ss01 and liga are present,
ss01's first position strictly precedes liga's. -/
lemma reorder_orders (font : GSFont)
    (hs : "ss01" ∈ featureNames (reorderFeatures font).1)
    (hl : "liga" ∈ featureNames (reorderFeatures font).1) :
    firstIdx (featureNames (reorderFeatures font).1) "ss01" <
      firstIdx (featureNames (reorderFeatures font).1) "liga" := by
  by_cases hboth : ("ss01" ∈ featureNames font ∧ "liga" ∈ featureNames font)
  · by_cases hord : firstIdx (featureNames font) "liga" <
        firstIdx (featureNames font) "ss01"
    · obtain ⟨s, hfs, hsn⟩ := mem_featureNames_find? font "ss01" hboth.1
      obtain ⟨l, hfl, hln⟩ := mem_featureNames_find? font "liga" hboth.2
      rw [reorderFeatures_swap font s l hfs hfl hord]
      dsimp only
      unfold featureNames
      dsimp only
      rw [List.map_append, List.map_cons, List.map_cons, List.map_nil, hsn, hln]
      have hnot_s : "ss01" ∉ (font.features.filter
          (fun f => !(f.name == "ss01") && !(f.name == "liga"))).map
            (fun f => f.name) := by
        intro hmem
        obtain ⟨f, hf, hfe⟩ := List.mem_map.mp hmem
        have h2 := (List.mem_filter.mp hf).2
        simp [hfe] at h2
      have hnot_l : "liga" ∉ (font.features.filter
          (fun f => !(f.name == "ss01") && !(f.name == "liga"))).map
            (fun f => f.name) := by
        intro hmem
        obtain ⟨f, hf, hfe⟩ := List.mem_map.mp hmem
        have h2 := (List.mem_filter.mp hf).2
        simp [hfe] at h2
      rw [firstIdx_append_of_not_mem _ _ _ hnot_s,
        firstIdx_append_of_not_mem _ _ _ hnot_l]
      have h1 : firstIdx ["ss01", "liga"] "ss01" = 0 := by decide
      have h2 : firstIdx ["ss01", "liga"] "liga" = 1 := by decide
      omega
    · rw [reorderFeatures_ordered font hord] at hs hl ⊢
      dsimp only at hs hl ⊢
      have hne : firstIdx (featureNames font) "ss01" ≠
          firstIdx (featureNames font) "liga" := by
        intro heq
        have := firstIdx_inj (featureNames font) "ss01" "liga" hs hl heq
        simp at this
      omega
  · rw [reorderFeatures_not_both font hboth] at hs hl
    dsimp only at hs hl
    exact absurd ⟨hs, hl⟩ hboth

/-- The font produced by the full feature phase is the reordering of the
font after the two merges. -/
lemma add_opentype_features_fst (font : GSFont) :
    (add_opentype_features font).1 =
      (reorderFeatures (update_feature (update_feature font "ss01" ss01_rules).1
        "liga" liga_rules).1).1 := rfl

/-- C2: after add_opentype_features returns, if features named ss01 and
liga both exist in the feature list then ss01's first position is strictly
less than liga's, and all features other than ss01 and liga retain their
prior relative order (the sublist of such features is unchanged from the
original font); and if either of the two names is absent the reordering
step returns the font unchanged. -/
theorem claim_c2 :
    (∀ font : GSFont,
      (("ss01" ∈ featureNames (add_opentype_features font).1 ∧
        "liga" ∈ featureNames (add_opentype_features font).1) →
        firstIdx (featureNames (add_opentype_features font).1) "ss01" <
          firstIdx (featureNames (add_opentype_features font).1) "liga") ∧
      (add_opentype_features font).1.features.filter
        (fun f => !(f.name == "ss01") && !(f.name == "liga")) =
      font.features.filter (fun f => !(f.name == "ss01") && !(f.name == "liga"))) ∧
    (∀ font : GSFont,
      ("ss01" ∉ featureNames font ∨ "liga" ∉ featureNames font) →
      reorderFeatures font = (font, [])) := by
  constructor
  · intro font
    constructor
    · intro hboth
      rw [add_opentype_features_fst] at hboth ⊢
      exact reorder_orders _ hboth.1 hboth.2
    · rw [add_opentype_features_fst font, reorder_filter_other,
        update_filter_other _ "liga" liga_rules (Or.inr rfl),
        update_filter_other _ "ss01" ss01_rules (Or.inl rfl)]
  · intro font h
    apply reorderFeatures_not_both
    intro hboth
    rcases h with h | h
    · exact h hboth.1
    · exact h hboth.2

/-- Witness for C2 on a concrete font (and the empty font for the
skip-reordering part). -/
theorem claim_c2_witness :
    (firstIdx (featureNames (add_opentype_features wFontC2).1) "ss01" <
      firstIdx (featureNames (add_opentype_features wFontC2).1) "liga") ∧
    ((add_opentype_features wFontC2).1.features.filter
      (fun f => !(f.name == "ss01") && !(f.name == "liga")) =
      wFontC2.features.filter (fun f => !(f.name == "ss01") && !(f.name == "liga"))) ∧
    reorderFeatures wFontEmpty = (wFontEmpty, []) :=
  ⟨(claim_c2.1 wFontC2).1 (by decide), (claim_c2.1 wFontC2).2,
    claim_c2.2 wFontEmpty (Or.inl (by decide))⟩

/-- C10: if the first liga occurrence precedes the first ss01 occurrence,
the reordering step removes every feature bearing either name and
re-appends only the first ss01 and the first liga features; in particular
when those names occur more than once, the duplicates are silently
dropped, leaving exactly one feature of each name. -/
theorem claim_c10 (font : GSFont) (s l : GSFeature)
    (hs : font.features.find? (fun f => f.name == "ss01") = some s)
    (hl : font.features.find? (fun f => f.name == "liga") = some l)
    (hord : firstIdx (featureNames font) "liga" <
      firstIdx (featureNames font) "ss01")
    (_hdup : 1 < (featureNames font).count "ss01" ∨
      1 < (featureNames font).count "liga") :
    (reorderFeatures font).1.features =
      font.features.filter (fun f => !(f.name == "ss01") && !(f.name == "liga")) ++
        [s, l] ∧
    (featureNames (reorderFeatures font).1).count "ss01" = 1 ∧
    (featureNames (reorderFeatures font).1).count "liga" = 1 := by
  rw [reorderFeatures_swap font s l hs hl hord]
  dsimp only
  refine ⟨rfl, ?_, ?_⟩
  all_goals
    unfold featureNames
    dsimp only
    rw [List.map_append, List.map_cons, List.map_cons, List.map_nil,
      find?_name_eq font "ss01" s hs, find?_name_eq font "liga" l hl,
      List.count_append]
  · have h0 : ((font.features.filter
        (fun f => !(f.name == "ss01") && !(f.name == "liga"))).map
          (fun f => f.name)).count "ss01" = 0 := by
      rw [List.count_eq_zero]
      intro hmem
      obtain ⟨f, hf, hfe⟩ := List.mem_map.mp hmem
      have h2 := (List.mem_filter.mp hf).2
      simp [hfe] at h2
    rw [h0]
    decide
  · have h0 : ((font.features.filter
        (fun f => !(f.name == "ss01") && !(f.name == "liga"))).map
          (fun f => f.name)).count "liga" = 0 := by
      rw [List.count_eq_zero]
      intro hmem
      obtain ⟨f, hf, hfe⟩ := List.mem_map.mp hmem
      have h2 := (List.mem_filter.mp hf).2
      simp [hfe] at h2
    rw [h0]
    decide

/-- Witness for C10 on a concrete font with a duplicated ss01 feature. -/
theorem claim_c10_witness :
    (reorderFeatures wFontC10).1.features =
      wFontC10.features.filter (fun f => !(f.name == "ss01") && !(f.name == "liga")) ++
        [{ name := "ss01", code := "S1" }, { name := "liga", code := "L1" }] ∧
    (featureNames (reorderFeatures wFontC10).1).count "ss01" = 1 ∧
    (featureNames (reorderFeatures wFontC10).1).count "liga" = 1 :=
  claim_c10 wFontC10 { name := "ss01", code := "S1" } { name := "liga", code := "L1" }
    (by decide) (by decide) (by decide) (Or.inl (by decide))

